import Mathlib

/-!
Verification of the lottery statistics-and-prediction core (`Lotto-2.py`).

The embedding follows the Python source closely:

* A Python `Counter` / `dict` is an insertion-ordered association list
  (`List (ℕ × ℕ)`): a new key is appended at the end, an existing key is
  updated in place.  This order is observable through
  `Counter.most_common` and `sorted(..., reverse=True)`, both of which are
  stable sorts, so it must be part of the model.
* `number_frequencies` and `co_occurrence` are the fold of the source's
  update loops over the record list.
* The random source is an explicit stream `ℕ → ℕ` of draws; positions `0`
  and `1` feed `random.sample`, positions `2, 3, …` feed the
  `random.choice` calls of the fill loop.  An index `r` drawn for a list
  `l` selects `l[r % l.length]`.
* The source's unbounded `while len(prediction) < top_n` loop is embedded
  as the fuel-indexed `fillFuel`; `FillRes.noFuel` means the loop has not
  finished within the given fuel, `FillRes.err` models the `IndexError`
  of `random.choice` on an empty pool.
-/

/-- Outcome of one prediction pass: a finished combination, the
`IndexError` of `random.choice([])`, or an unfinished fill loop. -/
inductive FillRes where
  | ok (p : List ℕ)
  | err
  | noFuel
deriving DecidableEq

/-- Lookup in an insertion-ordered association list; missing keys count 0,
like `Counter.__getitem__`. -/
def lookupAL : List (ℕ × ℕ) → ℕ → ℕ
  | [], _ => 0
  | (k, v) :: rest, n => if k = n then v else lookupAL rest n

/-- `cnt[n] += 1` on a Python `Counter`: update an existing key in place,
append a new key at the end. -/
def bumpAL : List (ℕ × ℕ) → ℕ → List (ℕ × ℕ)
  | [], n => [(n, 1)]
  | (k, v) :: rest, n => if k = n then (k, v + 1) :: rest else (k, v) :: bumpAL rest n

/-- The keys of an association list, in insertion order. -/
def keysAL (al : List (ℕ × ℕ)) : List ℕ := al.map Prod.fst

/-- `number_frequencies` of the source: one `Counter.update` per record. -/
def number_frequencies (results : List (List ℕ)) : List (ℕ × ℕ) :=
  results.foldl (fun cnt e => e.foldl bumpAL cnt) []

/-- `Counter.__getitem__` on the frequency counter (0 for unseen numbers). -/
def freqCount (results : List (List ℕ)) (n : ℕ) : ℕ :=
  lookupAL (number_frequencies results) n

/-- The co-occurrence structure: `defaultdict(Counter)`, an
insertion-ordered association list of insertion-ordered counters. -/
abbrev CoMat := List (ℕ × List (ℕ × ℕ))

/-- `co[a]` : the counter of a row, `[]` when the row was never touched. -/
def lookupCo : CoMat → ℕ → List (ℕ × ℕ)
  | [], _ => []
  | (k, al) :: rest, a => if k = a then al else lookupCo rest a

/-- `co[a][b] += 1` on a `defaultdict(Counter)`: a fresh row is appended
at the end, the touched counter key is bumped. -/
def bumpCo : CoMat → ℕ → ℕ → CoMat
  | [], a, b => [(a, [(b, 1)])]
  | (k, al) :: rest, a, b =>
      if k = a then (k, bumpAL al b) :: rest else (k, al) :: bumpCo rest a b

/-- The double loop of `co_occurrence` over a single record:
`for a in nums: for b in nums: if a != b: co[a][b] += 1`. -/
def coUpdEntry (co : CoMat) (nums : List ℕ) : CoMat :=
  nums.foldl
    (fun co a => nums.foldl (fun co b => if a ≠ b then bumpCo co a b else co) co)
    co

/-- `co_occurrence` of the source. -/
def co_occurrence (results : List (List ℕ)) : CoMat :=
  results.foldl coUpdEntry []

/-- `co[a][b]` read off the built co-occurrence structure. -/
def coCount (results : List (List ℕ)) (a b : ℕ) : ℕ :=
  lookupAL (lookupCo (co_occurrence results) a) b

/-- One step of Python's stable descending-by-count sort: insert before
the first strictly smaller count, after all `≥` counts, so that elements
processed earlier (by `List.foldr`) stay in front of equal counts. -/
def insDesc (x : ℕ × ℕ) : List (ℕ × ℕ) → List (ℕ × ℕ)
  | [] => [x]
  | y :: ys => if y.2 ≤ x.2 then x :: y :: ys else y :: insDesc x ys

/-- `sorted(items, key=lambda x: x[1], reverse=True)` and the sort inside
`Counter.most_common`: stable, descending by count, ties keep insertion
order. -/
def sortDesc (l : List (ℕ × ℕ)) : List (ℕ × ℕ) := l.foldr insDesc []

/-- `freq.most_common(20)` of the source (line 62). -/
def topItemsOf (results : List (List ℕ)) : List (ℕ × ℕ) :=
  (sortDesc (number_frequencies results)).take 20

/-- `top_nums = [n for n, _ in freq.most_common(20)]` (line 62). -/
def top_nums_of (results : List (List ℕ)) : List ℕ :=
  (topItemsOf results).map Prod.fst

/-- `sorted(co[seed].items(), key=lambda x: x[1], reverse=True)`
(line 75); the empty list doubles for the `if seed in co` guard, since a
missing row has no items. -/
def partnersOf (results : List (List ℕ)) (n : ℕ) : List (ℕ × ℕ) :=
  sortDesc (lookupCo (co_occurrence results) n)

/-- Adding to the Python set `prediction`: no-op on a present element. -/
def insertNew (x : ℕ) (s : List ℕ) : List ℕ := if x ∈ s then s else x :: s

/-- `random.choice(l)` driven by one stream draw `r`: element `r % len`. -/
def pick (l : List ℕ) (r : ℕ) : ℕ := l.getD (r % l.length) 0

/-- `random.sample(l, k=min(2, len(l)))` driven by two stream draws:
distinct positions, the second drawn from the list with the first
position removed. -/
def sample2 (l : List ℕ) (r1 r2 : ℕ) : List ℕ :=
  if l.length ≤ 1 then l
  else [pick l r1, pick (l.eraseIdx (r1 % l.length)) r2]

/-- The fill loop `while len(prediction) < top_n: prediction.add(random.choice(top_nums))`
(lines 81-82), indexed by fuel.  `i` is the position of the next stream
draw. -/
def fillFuel (pool : List ℕ) (top_n : ℕ) (stream : ℕ → ℕ) :
    ℕ → ℕ → List ℕ → FillRes
  | 0, _, pred =>
      if top_n ≤ pred.length then .ok pred
      else if pool = [] then .err else .noFuel
  | fuel + 1, i, pred =>
      if top_n ≤ pred.length then .ok pred
      else if pool = [] then .err
      else fillFuel pool top_n stream fuel (i + 1) (insertNew (pick pool (stream i)) pred)

/-- The prediction set after `n` iterations of the fill loop body,
starting with stream position `i`: the reference trajectory used to
reason about termination. -/
def fillState (pool : List ℕ) (stream : ℕ → ℕ) : ℕ → ℕ → List ℕ → List ℕ
  | 0, _, pred => pred
  | n + 1, i, pred => fillState pool stream n (i + 1) (insertNew (pick pool (stream i)) pred)

/-- `seeds = random.sample(top_nums, k=min(2, len(top_nums)))` (line 69). -/
def seedsOf (results : List (List ℕ)) (stream : ℕ → ℕ) : List ℕ :=
  sample2 (top_nums_of results) (stream 0) (stream 1)

/-- The body of the partner loop for one seed (lines 74-78): take up to 2
top co-occurring partners and add each while the set is still short. -/
def addPartnersFor (results : List (List ℕ)) (top_n : ℕ) (p : List ℕ) (seed : ℕ) :
    List ℕ :=
  ((partnersOf results seed).take 2).foldl
    (fun p pr => if p.length < top_n then insertNew pr.1 p else p) p

/-- The prediction set just before the fill loop: seeds (lines 69-70),
then the partner loop over the seeds (lines 73-78). -/
def preFill (results : List (List ℕ)) (top_n : ℕ) (stream : ℕ → ℕ) : List ℕ :=
  (seedsOf results stream).foldl (addPartnersFor results top_n)
    ((seedsOf results stream).foldl (fun p s => insertNew s p) [])

/-- `sorted(prediction)` (line 84). -/
def sortAsc (l : List ℕ) : List ℕ := l.insertionSort (· ≤ ·)

/-- One iteration of the prediction loop of `predict_next_numbers`. -/
def predictOne (results : List (List ℕ)) (top_n : ℕ) (stream : ℕ → ℕ)
    (fuel : ℕ) : FillRes :=
  match fillFuel (top_nums_of results) top_n stream fuel 2 (preFill results top_n stream) with
  | .ok p => .ok (sortAsc p)
  | r => r

/-- `predict_next_numbers(results, top_n, n_predictions)`: the
predictions are independent passes; pass `j` consumes the stream
`streams j`. -/
def predict_next_numbers (results : List (List ℕ)) (top_n n_predictions : ℕ)
    (streams : ℕ → ℕ → ℕ) (fuel : ℕ) : List FillRes :=
  (List.range n_predictions).map fun j => predictOne results top_n (streams j) fuel

/-- The fill loop never finishes, whatever the fuel: the embedding of a
diverging `while` loop. -/
def predictStalls (results : List (List ℕ)) (stream : ℕ → ℕ) : Prop :=
  ∀ fuel, predictOne results 6 stream fuel = FillRes.noFuel

/-- All counts stored in an association list are positive (a `Counter`
never stores a key it has not bumped). -/
def GoodAL (al : List (ℕ × ℕ)) : Prop := ∀ p ∈ al, 1 ≤ p.2

/-- A text cell is modelled as its list of character code points
(`"99-99"` is `[57, 57, 45, 57, 57]`), so that the parser is fully
executable. -/
def isDigitCh (c : ℕ) : Bool := 48 ≤ c && c ≤ 57

/-- Python's `str.isdigit` on ASCII text: nonempty and all digits.  On
non-ASCII text Python's `isdigit` also accepts digit-like characters
(e.g. superscripts) that `int()` then rejects with `ValueError`; the
theorems about the parser therefore carry an ASCII-cells hypothesis, the
domain on which this model is exact. -/
def pyIsDigit (s : List ℕ) : Bool := !s.isEmpty && s.all isDigitCh

/-- `nums_str.split("-")`: split on the code point 45 (`'-'`); like
Python's `split`, it keeps empty fragments. -/
def splitDash (s : List ℕ) : List (List ℕ) :=
  s.foldr
    (fun c acc =>
      if c = 45 then [] :: acc
      else
        match acc with
        | [] => [[c]]
        | t :: ts => (c :: t) :: ts)
    [[]]

/-- `int(t)` on a digit-only token. -/
def tokToNat (t : List ℕ) : ℕ := t.foldl (fun n c => 10 * n + (c - 48)) 0

/-- `[int(n) for n in nums_str.split("-") if n.isdigit()]` (line 32). -/
def rowNumbers (nums_str : List ℕ) : List ℕ :=
  ((splitDash nums_str).filter pyIsDigit).map tokToNat

/-- Python's `\s` on the ASCII range: 0x09-0x0D, 0x1C-0x1F and space. -/
def isSpaceCh (c : ℕ) : Bool := (9 ≤ c && c ≤ 13) || (28 ≤ c && c ≤ 31) || c = 32

/-- ASCII lowercase, for `re.IGNORECASE` in `strptime`. -/
def toLowerCh (c : ℕ) : ℕ := if 65 ≤ c ∧ c ≤ 90 then c + 32 else c

/-- The C-locale month abbreviations `jan` .. `dec` that `%b` matches,
as lowercase code points. -/
def monthAbbrevs : List (List ℕ) :=
  [[106,97,110], [102,101,98], [109,97,114], [97,112,114], [109,97,121], [106,117,110],
   [106,117,108], [97,117,103], [115,101,112], [111,99,116], [110,111,118], [100,101,99]]

/-- The month number (1-12) of a lowercase three-letter token. -/
def monthIdxFrom : ℕ → List (List ℕ) → List ℕ → Option ℕ
  | _, [], _ => none
  | i, m :: ms, t => if m = t then some i else monthIdxFrom (i + 1) ms t

/-- Gregorian leap year, as `datetime` checks it. -/
def leapYear (y : ℕ) : Bool :=
  if y % 400 = 0 then true
  else if y % 100 = 0 then false
  else if y % 4 = 0 then true
  else false

/-- Days in a month, as `datetime` validates the parsed day. -/
def daysInMonth (m y : ℕ) : ℕ :=
  if m = 2 then (if leapYear y then 29 else 28)
  else if m = 4 ∨ m = 6 ∨ m = 9 ∨ m = 11 then 30
  else 31

/-- `strptime`'s `%d`: the regex alternation `3[01]|[12]\d|0[1-9]|[1-9]`,
tried in that order (matching regex alternation; no backtracking case
diverges on a digit-comma continuation). -/
def parseDayTok : List ℕ → Option (ℕ × List ℕ)
  | c1 :: c2 :: rest =>
      if c1 = 51 ∧ (c2 = 48 ∨ c2 = 49) then some (30 + (c2 - 48), rest)
      else if (c1 = 49 ∨ c1 = 50) ∧ isDigitCh c2 then some ((c1 - 48) * 10 + (c2 - 48), rest)
      else if c1 = 48 ∧ 49 ≤ c2 ∧ c2 ≤ 57 then some (c2 - 48, rest)
      else if 49 ≤ c1 ∧ c1 ≤ 57 then some (c1 - 48, c2 :: rest)
      else none
  | [c1] => if 49 ≤ c1 ∧ c1 ≤ 57 then some (c1 - 48, []) else none
  | [] => none

/-- `strptime`'s `%Y`: exactly four digits. -/
def parseYear : List ℕ → Option (ℕ × List ℕ)
  | c1 :: c2 :: c3 :: c4 :: rest =>
      if isDigitCh c1 ∧ isDigitCh c2 ∧ isDigitCh c3 ∧ isDigitCh c4 then
        some ((((c1 - 48) * 10 + (c2 - 48)) * 10 + (c3 - 48)) * 10 + (c4 - 48), rest)
      else none
  | _ => none

/-- `datetime.strptime(date_str, "%b %d, %Y")` (line 31): a
case-insensitive month abbreviation, one or more whitespace (format
whitespace matches `\s+`), the day, a literal comma, one or more
whitespace, a four-digit year; the whole cell must be consumed, and the
resulting date must be calendar-valid (`datetime` raises otherwise).
`none` is the `ValueError` that the surrounding `try` turns into an
empty overall result. -/
def parseDate (s : List ℕ) : Option (ℕ × ℕ × ℕ) :=
  match monthIdxFrom 1 monthAbbrevs ((s.take 3).map toLowerCh) with
  | none => none
  | some month =>
    let s1 := s.drop 3
    let s2 := s1.dropWhile isSpaceCh
    if s2.length = s1.length then none
    else
      match parseDayTok s2 with
      | none => none
      | some (day, s3) =>
        match s3 with
        | 44 :: s4 =>
          let s5 := s4.dropWhile isSpaceCh
          if s5.length = s4.length then none
          else
            match parseYear s5 with
            | none => none
            | some (year, s6) =>
                if s6 = [] ∧ 1 ≤ year ∧ day ≤ daysInMonth month year then
                  some (month, day, year)
                else none
        | _ => none

/-- Outcome of one iteration of the row loop: a record appended, a short
row skipped, or an exception that aborts the whole fetch. -/
inductive RowRes where
  | ok (date : ℕ × ℕ × ℕ) (nums : List ℕ)
  | skip
  | abort
deriving DecidableEq

/-- One iteration of the row loop of `fetch_manalotto_history`
(lines 24-33): a row with fewer than two columns is skipped; otherwise
the date cell is parsed first (line 31) — its failure raises and aborts
the fetch — and then the row is accepted with whatever numbers parse
from its second column.  No validation of the parsed numbers happens
anywhere. -/
def parseRow (cols : List (List ℕ)) : RowRes :=
  if 2 ≤ cols.length then
    match parseDate (cols.getD 0 []) with
    | none => .abort
    | some d => .ok d (rowNumbers (cols.getD 1 []))
  else .skip

/-- The row loop of `fetch_manalotto_history`: `none` means an exception
escaped the loop. -/
def fetchLoop : List (List (List ℕ)) → Option (List ((ℕ × ℕ × ℕ) × List ℕ))
  | [] => some []
  | row :: rest =>
      match parseRow row with
      | .abort => none
      | .skip => fetchLoop rest
      | .ok d nums =>
          match fetchLoop rest with
          | none => none
          | some acc => some ((d, nums) :: acc)

/-- `fetch_manalotto_history` (lines 23-38), given the already-extracted
cell texts of the table rows: the `except` branch turns any exception
into an empty result. -/
def fetch_manalotto_history (rows : List (List (List ℕ))) :
    List ((ℕ × ℕ × ℕ) × List ℕ) :=
  match fetchLoop rows with
  | none => []
  | some results => results

/-- Modelled from the spec: the `DrawRecord` validity predicate the spec
demands at construction — exactly 6 distinct integers in `[1, 58]`.  The
source has no counterpart. -/
def specValidNumbers (nums : List ℕ) : Prop :=
  nums.length = 6 ∧ nums.Nodup ∧ ∀ x ∈ nums, 1 ≤ x ∧ x ≤ 58

instance (nums : List ℕ) : Decidable (specValidNumbers nums) := by
  unfold specValidNumbers; infer_instance

/-- Modelled from the spec: insertion step of the spec's tie-break order
for `topK` / `partnersOf` — count descending, ties by ascending number. -/
def specInsertItem (x : ℕ × ℕ) : List (ℕ × ℕ) → List (ℕ × ℕ)
  | [] => [x]
  | y :: ys =>
      if y.2 < x.2 ∨ (y.2 = x.2 ∧ x.1 < y.1) then x :: y :: ys
      else y :: specInsertItem x ys

/-- Modelled from the spec: sort by count descending, ties broken by
ascending number value. -/
def specSortItems (l : List (ℕ × ℕ)) : List (ℕ × ℕ) := l.foldr specInsertItem []

/-- Modelled from the spec: `topK(k)` with the spec's tie-break. -/
def specTopK (results : List (List ℕ)) (k : ℕ) : List (ℕ × ℕ) :=
  (specSortItems (number_frequencies results)).take k

/-- Modelled from the spec: `partnersOf` with the spec's tie-break. -/
def specPartnersOf (results : List (List ℕ)) (n : ℕ) : List (ℕ × ℕ) :=
  specSortItems (lookupCo (co_occurrence results) n)

/-! ### Association-list counters -/

theorem lookupAL_bumpAL (al : List (ℕ × ℕ)) (n m : ℕ) :
    lookupAL (bumpAL al n) m = if m = n then lookupAL al m + 1 else lookupAL al m := by
  induction al with
  | nil => by_cases h : m = n <;> simp [bumpAL, lookupAL, h] <;> omega
  | cons p rest ih =>
      obtain ⟨k, v⟩ := p
      by_cases hk : k = n
      · by_cases hm : k = m
        · have : m = n := by omega
          simp [bumpAL, lookupAL, hk, hm, this]
        · have h1 : ¬ m = n := by omega
          have h2 : ¬ n = m := by omega
          simp [bumpAL, lookupAL, hk, hm, h1, h2]
      · by_cases hm : k = m
        · have : ¬ m = n := by omega
          simp [bumpAL, lookupAL, hk, hm, this]
        · simp [bumpAL, lookupAL, hk, hm, ih]

theorem lookupAL_foldl_bumpAL (l : List ℕ) (al : List (ℕ × ℕ)) (m : ℕ) :
    lookupAL (l.foldl bumpAL al) m = lookupAL al m + l.count m := by
  induction l generalizing al with
  | nil => simp
  | cons x xs ih =>
      rw [List.foldl_cons, ih (bumpAL al x), lookupAL_bumpAL]
      by_cases h : m = x <;> simp [List.count_cons, h] <;> omega

theorem foldl_update_eq_flatten (L : List (List ℕ)) (al : List (ℕ × ℕ)) :
    L.foldl (fun cnt e => e.foldl bumpAL cnt) al = (L.flatten).foldl bumpAL al := by
  induction L generalizing al with
  | nil => rfl
  | cons e rest ih => simp [List.foldl_append, ih]

theorem freqCount_eq_count (results : List (List ℕ)) (n : ℕ) :
    freqCount results n = (results.flatten).count n := by
  unfold freqCount number_frequencies
  rw [foldl_update_eq_flatten, lookupAL_foldl_bumpAL]
  simp [lookupAL]

theorem sum_count_eq_length (s : Finset ℕ) (l : List ℕ) (h : ∀ x ∈ l, x ∈ s) :
    (∑ n ∈ s, l.count n) = l.length := by
  induction l with
  | nil => simp
  | cons x xs ih =>
      have hx : x ∈ s := h x (List.mem_cons_self x xs)
      have hxs : ∀ y ∈ xs, y ∈ s := fun y hy => h y (List.mem_cons_of_mem x hy)
      have step : ∀ n, (x :: xs).count n = xs.count n + if n = x then 1 else 0 := by
        intro n; by_cases hn : n = x <;> simp [List.count_cons, hn]
      calc (∑ n ∈ s, (x :: xs).count n)
          = ∑ n ∈ s, (xs.count n + if n = x then 1 else 0) :=
            Finset.sum_congr rfl fun n _ => step n
        _ = (∑ n ∈ s, xs.count n) + ∑ n ∈ s, (if n = x then 1 else 0) :=
            Finset.sum_add_distrib
        _ = xs.length + 1 := by
            rw [ih hxs, Finset.sum_ite_eq' s x (fun _ => 1)]
            simp [hx]
        _ = (x :: xs).length := by simp

theorem sum_lengths_of_six (L : List (List ℕ)) (h : ∀ r ∈ L, r.length = 6) :
    (L.map List.length).sum = 6 * L.length := by
  induction L with
  | nil => simp
  | cons e rest ih =>
      have he : e.length = 6 := h e (List.mem_cons_self e rest)
      have hrest := ih fun r hr => h r (List.mem_cons_of_mem e hr)
      simp [he, hrest]
      omega

/-- C4: for a record set whose records each hold 6 distinct integers in
[1,58], the counts of `number_frequencies` over 1..58 sum to `6 × |R|`. -/
theorem freq_conservation (results : List (List ℕ))
    (h : ∀ r ∈ results, r.length = 6 ∧ r.Nodup ∧ ∀ x ∈ r, 1 ≤ x ∧ x ≤ 58) :
    (∑ n ∈ Finset.Icc 1 58, freqCount results n) = 6 * results.length := by
  calc (∑ n ∈ Finset.Icc 1 58, freqCount results n)
      = ∑ n ∈ Finset.Icc 1 58, (results.flatten).count n :=
        Finset.sum_congr rfl fun n _ => freqCount_eq_count results n
    _ = (results.flatten).length := by
        refine sum_count_eq_length _ _ ?_
        intro x hx
        rw [List.mem_flatten] at hx
        obtain ⟨r, hr, hxr⟩ := hx
        have := (h r hr).2.2 x hxr
        rw [Finset.mem_Icc]
        omega
    _ = (results.map List.length).sum := List.length_flatten results
    _ = 6 * results.length := sum_lengths_of_six results fun r hr => (h r hr).1

/-- Witness for C4 at the two-record set of the spec's examples. -/
theorem freq_conservation_witness :
    (∀ r ∈ ([[1,2,3,4,5,6],[1,2,7,8,9,10]] : List (List ℕ)),
        r.length = 6 ∧ r.Nodup ∧ ∀ x ∈ r, 1 ≤ x ∧ x ≤ 58) ∧
    (∑ n ∈ Finset.Icc 1 58, freqCount [[1,2,3,4,5,6],[1,2,7,8,9,10]] n) =
      6 * ([[1,2,3,4,5,6],[1,2,7,8,9,10]] : List (List ℕ)).length :=
  ⟨by decide, freq_conservation _ (by decide)⟩

/-! ### Co-occurrence closed form -/

theorem lookupCo_bumpCo (co : CoMat) (x y a : ℕ) :
    lookupCo (bumpCo co x y) a =
      if a = x then bumpAL (lookupCo co a) y else lookupCo co a := by
  induction co with
  | nil =>
      by_cases h : a = x
      · simp [bumpCo, lookupCo, bumpAL, h]
      · have h' : ¬ x = a := by omega
        simp [bumpCo, lookupCo, h, h']
  | cons p rest ih =>
      obtain ⟨k, al⟩ := p
      by_cases hk : k = x
      · by_cases ha : a = x
        · have : k = a := by omega
          simp [bumpCo, lookupCo, hk, ha, this]
        · have h1 : ¬ k = a := by omega
          have h2 : ¬ x = a := by omega
          simp [bumpCo, lookupCo, hk, ha, h1, h2]
      · by_cases hka : k = a
        · have : ¬ a = x := by omega
          simp [bumpCo, lookupCo, hk, hka, this]
        · simp [bumpCo, lookupCo, hk, hka, ih]

theorem cg_bumpCo (co : CoMat) (x y a b : ℕ) :
    lookupAL (lookupCo (bumpCo co x y) a) b =
      lookupAL (lookupCo co a) b + (if a = x ∧ b = y then 1 else 0) := by
  rw [lookupCo_bumpCo]
  by_cases ha : a = x
  · rw [if_pos ha, lookupAL_bumpAL]
    by_cases hb : b = y <;> simp [ha, hb]
  · simp [ha]

theorem count_cons_ite (b c : ℕ) (cs : List ℕ) :
    (c :: cs).count b = cs.count b + if b = c then 1 else 0 := by
  by_cases h : b = c <;> simp [List.count_cons, h]

theorem cg_inner (nums : List ℕ) (c' : ℕ) (co : CoMat) (a b : ℕ) :
    lookupAL (lookupCo (nums.foldl (fun co b' => if c' ≠ b' then bumpCo co c' b' else co) co) a) b =
      lookupAL (lookupCo co a) b +
        (if a = c' ∧ b ≠ c' then nums.count b else 0) := by
  induction nums generalizing co with
  | nil => simp
  | cons c cs ih =>
      rw [List.foldl_cons, ih]
      have hstep : lookupAL (lookupCo (if c' ≠ c then bumpCo co c' c else co) a) b =
          lookupAL (lookupCo co a) b + (if c' ≠ c ∧ a = c' ∧ b = c then 1 else 0) := by
        by_cases h : c' = c
        · simp [h]
        · rw [if_pos h, cg_bumpCo]
          by_cases h2 : a = c' ∧ b = c <;> simp [h, h2]
      rw [hstep, count_cons_ite]
      split_ifs <;> omega

theorem cg_outer (nums outer : List ℕ) (co : CoMat) (a b : ℕ) :
    lookupAL (lookupCo
        (outer.foldl
          (fun co a' => nums.foldl (fun co b' => if a' ≠ b' then bumpCo co a' b' else co) co)
          co) a) b =
      lookupAL (lookupCo co a) b +
        (if b ≠ a then outer.count a * nums.count b else 0) := by
  induction outer generalizing co with
  | nil => simp
  | cons d ds ih =>
      rw [List.foldl_cons, ih, cg_inner, count_cons_ite]
      split_ifs <;> simp [Nat.add_mul, Nat.one_mul] <;> omega

theorem cg_entry (co : CoMat) (nums : List ℕ) (a b : ℕ) :
    lookupAL (lookupCo (coUpdEntry co nums) a) b =
      lookupAL (lookupCo co a) b +
        (if b ≠ a then nums.count a * nums.count b else 0) := by
  unfold coUpdEntry
  exact cg_outer nums nums co a b

theorem coCount_closed (results : List (List ℕ)) (a b : ℕ) :
    coCount results a b =
      if a = b then 0
      else (results.map fun r => r.count a * r.count b).sum := by
  have aux : ∀ (L : List (List ℕ)) (co : CoMat),
      lookupAL (lookupCo (L.foldl coUpdEntry co) a) b =
        lookupAL (lookupCo co a) b +
          (if b ≠ a then (L.map fun r => r.count a * r.count b).sum else 0) := by
    intro L
    induction L with
    | nil => intro co; simp
    | cons e rest ih =>
        intro co
        rw [List.foldl_cons, ih, cg_entry]
        by_cases h : b = a <;> simp [h] <;> omega
  unfold coCount co_occurrence
  rw [aux]
  by_cases h : a = b
  · simp [h, lookupCo, lookupAL]
  · have h' : b ≠ a := fun e => h e.symm
    simp [h, h', lookupCo, lookupAL]

/-- C5: the co-occurrence aggregate is symmetric on distinct pairs. -/
theorem co_occurrence_symm (results : List (List ℕ)) (a b : ℕ) (h : a ≠ b) :
    coCount results a b = coCount results b a := by
  rw [coCount_closed, coCount_closed]
  have h' : ¬ b = a := fun e => h e.symm
  rw [if_neg h, if_neg h']
  rw [show (fun (r : List ℕ) => r.count a * r.count b) =
        (fun (r : List ℕ) => r.count b * r.count a) from funext fun r => Nat.mul_comm _ _]

/-- Witness for C5 at a concrete record set and pair. -/
theorem co_occurrence_symm_witness :
    (1 : ℕ) ≠ 2 ∧
    coCount [[1,2,3,4,5,6],[1,2,7,8,9,10]] 1 2 = coCount [[1,2,3,4,5,6],[1,2,7,8,9,10]] 2 1 :=
  ⟨by decide, co_occurrence_symm _ 1 2 (by decide)⟩

theorem count_flatten_eq_sum (L : List (List ℕ)) (n : ℕ) :
    (L.flatten).count n = (L.map fun r => r.count n).sum := by
  induction L with
  | nil => simp
  | cons e rest ih => simp [List.count_append, ih]

/-- C6: on records with distinct numbers, `co[a][b] ≤ min(freq[a], freq[b])`. -/
theorem co_occurrence_bound (results : List (List ℕ)) (a b : ℕ)
    (h : ∀ r ∈ results, r.Nodup) :
    coCount results a b ≤ min (freqCount results a) (freqCount results b) := by
  rw [coCount_closed]
  by_cases hab : a = b
  · simp [hab]
  · rw [if_neg hab]
    have hfa : freqCount results a = (results.map fun r => r.count a).sum := by
      rw [freqCount_eq_count, count_flatten_eq_sum]
    have hfb : freqCount results b = (results.map fun r => r.count b).sum := by
      rw [freqCount_eq_count, count_flatten_eq_sum]
    refine Nat.le_min.mpr ⟨?_, ?_⟩
    · rw [hfa]
      refine List.sum_le_sum ?_
      intro r hr
      have hb1 : r.count b ≤ 1 := List.nodup_iff_count_le_one.mp (h r hr) b
      calc r.count a * r.count b ≤ r.count a * 1 := Nat.mul_le_mul_left _ hb1
        _ = r.count a := Nat.mul_one _
    · rw [hfb]
      refine List.sum_le_sum ?_
      intro r hr
      have ha1 : r.count a ≤ 1 := List.nodup_iff_count_le_one.mp (h r hr) a
      calc r.count a * r.count b ≤ 1 * r.count b := Nat.mul_le_mul_right _ ha1
        _ = r.count b := Nat.one_mul _

/-- Witness for C6 at a concrete record set and pair. -/
theorem co_occurrence_bound_witness :
    (∀ r ∈ ([[1,2,3,4,5,6],[1,2,7,8,9,10]] : List (List ℕ)), r.Nodup) ∧
    coCount [[1,2,3,4,5,6],[1,2,7,8,9,10]] 1 2 ≤
      min (freqCount [[1,2,3,4,5,6],[1,2,7,8,9,10]] 1)
        (freqCount [[1,2,3,4,5,6],[1,2,7,8,9,10]] 2) :=
  ⟨by decide, co_occurrence_bound _ 1 2 (by decide)⟩

/-! ### The stable descending sort and the key structure of the counters -/

theorem perm_insDesc (x : ℕ × ℕ) (l : List (ℕ × ℕ)) :
    List.Perm (insDesc x l) (x :: l) := by
  induction l with
  | nil => exact List.Perm.refl _
  | cons y ys ih =>
      by_cases h : y.2 ≤ x.2
      · simp [insDesc, h]
      · rw [insDesc, if_neg h]
        exact (ih.cons y).trans (List.Perm.swap x y ys)

theorem perm_sortDesc (l : List (ℕ × ℕ)) : List.Perm (sortDesc l) l := by
  induction l with
  | nil => exact List.Perm.refl _
  | cons x xs ih => exact (perm_insDesc x (sortDesc xs)).trans (ih.cons x)

theorem mem_insDesc (z x : ℕ × ℕ) (l : List (ℕ × ℕ)) :
    z ∈ insDesc x l ↔ z = x ∨ z ∈ l := by
  rw [(perm_insDesc x l).mem_iff, List.mem_cons]

theorem pairwise_insDesc (x : ℕ × ℕ) (l : List (ℕ × ℕ))
    (h : List.Pairwise (fun p q : ℕ × ℕ => q.2 ≤ p.2) l) :
    List.Pairwise (fun p q : ℕ × ℕ => q.2 ≤ p.2) (insDesc x l) := by
  induction l with
  | nil => simp [insDesc]
  | cons y ys ih =>
      obtain ⟨hy, hys⟩ := List.pairwise_cons.mp h
      by_cases hc : y.2 ≤ x.2
      · rw [insDesc, if_pos hc]
        refine List.pairwise_cons.mpr ⟨?_, h⟩
        intro z hz
        rcases List.mem_cons.mp hz with rfl | hz'
        · exact hc
        · exact le_trans (hy z hz') hc
      · rw [insDesc, if_neg hc]
        refine List.pairwise_cons.mpr ⟨?_, ih hys⟩
        intro z hz
        rcases (mem_insDesc z x ys).mp hz with rfl | hz'
        · omega
        · exact hy z hz'

theorem sorted_sortDesc (l : List (ℕ × ℕ)) :
    List.Pairwise (fun p q : ℕ × ℕ => q.2 ≤ p.2) (sortDesc l) := by
  induction l with
  | nil => simp [sortDesc]
  | cons x xs ih => exact pairwise_insDesc x (sortDesc xs) ih

theorem keysAL_bumpAL (al : List (ℕ × ℕ)) (n : ℕ) :
    keysAL (bumpAL al n) =
      if n ∈ keysAL al then keysAL al else keysAL al ++ [n] := by
  induction al with
  | nil => simp [bumpAL, keysAL]
  | cons p rest ih =>
      obtain ⟨k, v⟩ := p
      by_cases hk : k = n
      · simp [bumpAL, keysAL, hk]
      · rw [bumpAL, if_neg hk]
        have hkeys : keysAL ((k, v) :: bumpAL rest n) = k :: keysAL (bumpAL rest n) := rfl
        by_cases hmem : n ∈ keysAL rest
        · have hm2 : n ∈ keysAL ((k, v) :: rest) := List.mem_cons_of_mem _ hmem
          rw [hkeys, ih, if_pos hmem, if_pos hm2]
          rfl
        · have hm2 : n ∉ keysAL ((k, v) :: rest) := by
            intro hcon
            rcases List.mem_cons.mp hcon with h1 | h1
            · exact hk h1.symm
            · exact hmem h1
          rw [hkeys, ih, if_neg hmem, if_neg hm2]
          rfl

theorem nodup_keys_bumpAL (al : List (ℕ × ℕ)) (n : ℕ)
    (h : (keysAL al).Nodup) : (keysAL (bumpAL al n)).Nodup := by
  rw [keysAL_bumpAL]
  by_cases hmem : n ∈ keysAL al
  · rwa [if_pos hmem]
  · rw [if_neg hmem]
    simp [List.nodup_append, h, hmem]

theorem goodAL_bumpAL (al : List (ℕ × ℕ)) (n : ℕ)
    (h : GoodAL al) : GoodAL (bumpAL al n) := by
  induction al with
  | nil =>
      intro p hp
      simp [bumpAL] at hp
      simp [hp]
  | cons q rest ih =>
      obtain ⟨k, v⟩ := q
      by_cases hk : k = n
      · rw [bumpAL, if_pos hk]
        intro p hp
        rcases List.mem_cons.mp hp with rfl | hp'
        · simp
        · exact h p (List.mem_cons_of_mem _ hp')
      · rw [bumpAL, if_neg hk]
        intro p hp
        rcases List.mem_cons.mp hp with rfl | hp'
        · exact h _ (List.mem_cons_self _ _)
        · exact ih (fun r hr => h r (List.mem_cons_of_mem _ hr)) p hp'

theorem nodup_keys_foldl_bumpAL (l : List ℕ) (al : List (ℕ × ℕ))
    (h : (keysAL al).Nodup) : (keysAL (l.foldl bumpAL al)).Nodup := by
  induction l generalizing al with
  | nil => exact h
  | cons x xs ih => exact ih _ (nodup_keys_bumpAL al x h)

theorem goodAL_foldl_bumpAL (l : List ℕ) (al : List (ℕ × ℕ))
    (h : GoodAL al) : GoodAL (l.foldl bumpAL al) := by
  induction l generalizing al with
  | nil => exact h
  | cons x xs ih => exact ih _ (goodAL_bumpAL al x h)

theorem nodup_keys_number_frequencies (results : List (List ℕ)) :
    (keysAL (number_frequencies results)).Nodup := by
  unfold number_frequencies
  rw [foldl_update_eq_flatten]
  exact nodup_keys_foldl_bumpAL _ [] (by simp [keysAL])

theorem goodAL_number_frequencies (results : List (List ℕ)) :
    GoodAL (number_frequencies results) := by
  unfold number_frequencies
  rw [foldl_update_eq_flatten]
  exact goodAL_foldl_bumpAL _ [] (by intro p hp; simp at hp)

theorem lookupAL_of_mem (al : List (ℕ × ℕ)) (k v : ℕ)
    (hnd : (keysAL al).Nodup) (h : (k, v) ∈ al) : lookupAL al k = v := by
  induction al with
  | nil => simp at h
  | cons q rest ih =>
      obtain ⟨k', v'⟩ := q
      obtain ⟨hk', hrest⟩ := List.pairwise_cons.mp hnd
      rcases List.mem_cons.mp h with heq | hmem
      · cases heq
        simp [lookupAL]
      · have hne : ¬ k' = k := by
          intro e
          exact hk' k (List.mem_map_of_mem Prod.fst hmem) e
        rw [lookupAL, if_neg hne]
        exact ih hrest hmem

theorem mem_keys_lookup_pos (al : List (ℕ × ℕ)) (n : ℕ)
    (hg : GoodAL al) (h : n ∈ keysAL al) : 1 ≤ lookupAL al n := by
  induction al with
  | nil => simp [keysAL] at h
  | cons q rest ih =>
      obtain ⟨k, v⟩ := q
      by_cases hk : k = n
      · rw [lookupAL, if_pos hk]
        exact hg (k, v) (List.mem_cons_self _ _)
      · rw [lookupAL, if_neg hk]
        rcases List.mem_cons.mp h with heq | hmem
        · exact absurd heq.symm hk
        · exact ih (fun r hr => hg r (List.mem_cons_of_mem _ hr)) hmem

theorem lookup_pos_mem_keys (al : List (ℕ × ℕ)) (n : ℕ)
    (h : 1 ≤ lookupAL al n) : n ∈ keysAL al := by
  induction al with
  | nil => simp [lookupAL] at h
  | cons q rest ih =>
      obtain ⟨k, v⟩ := q
      by_cases hk : k = n
      · simp [keysAL, hk]
      · rw [lookupAL, if_neg hk] at h
        exact List.mem_cons_of_mem _ (ih h)

/-! ### Invariants of the built co-occurrence structure -/

theorem foldl_rec {α σ : Type} (f : σ → α → σ) (P : σ → Prop) (l : List α) (s : σ)
    (h0 : P s) (hstep : ∀ t a, a ∈ l → P t → P (f t a)) : P (l.foldl f s) := by
  induction l generalizing s with
  | nil => exact h0
  | cons x xs ih =>
      rw [List.foldl_cons]
      exact ih (f s x) (hstep s x (List.mem_cons_self x xs) h0)
        fun t a ha => hstep t a (List.mem_cons_of_mem x ha)

theorem coKeys_bumpCo (co : CoMat) (a b x : ℕ)
    (h : x ∈ (bumpCo co a b).map Prod.fst) : x ∈ co.map Prod.fst ∨ x = a := by
  induction co with
  | nil =>
      simp [bumpCo] at h
      exact Or.inr h
  | cons q rest ih =>
      obtain ⟨k, al⟩ := q
      by_cases hk : k = a
      · rw [bumpCo, if_pos hk] at h
        simp only [List.map_cons] at h ⊢
        exact Or.inl h
      · rw [bumpCo, if_neg hk] at h
        simp only [List.map_cons, List.mem_cons] at h ⊢
        rcases h with h1 | h1
        · exact Or.inl (Or.inl h1)
        · rcases ih h1 with h2 | h2
          · exact Or.inl (Or.inr h2)
          · exact Or.inr h2

theorem coKeys_coUpdEntry (co : CoMat) (nums : List ℕ) (x : ℕ)
    (h : x ∈ (coUpdEntry co nums).map Prod.fst) :
    x ∈ co.map Prod.fst ∨ x ∈ nums := by
  unfold coUpdEntry at h
  refine foldl_rec _
    (fun co' : CoMat => x ∈ co'.map Prod.fst → x ∈ co.map Prod.fst ∨ x ∈ nums)
    nums co (fun hx => Or.inl hx) ?_ h
  intro t a ha hP hx
  refine foldl_rec _
    (fun co' : CoMat => x ∈ co'.map Prod.fst → x ∈ co.map Prod.fst ∨ x ∈ nums)
    nums t hP ?_ hx
  intro t' b hb hP' hx'
  by_cases hab : a ≠ b
  · rw [if_pos hab] at hx'
    rcases coKeys_bumpCo t' a b x hx' with h1 | h1
    · exact hP' h1
    · exact Or.inr (h1 ▸ ha)
  · rw [if_neg hab] at hx'
    exact hP' hx'

theorem coKeys_subset_flatten (results : List (List ℕ)) (x : ℕ)
    (h : x ∈ (co_occurrence results).map Prod.fst) : x ∈ results.flatten := by
  unfold co_occurrence at h
  refine foldl_rec _
    (fun co' : CoMat => x ∈ co'.map Prod.fst → x ∈ results.flatten)
    results [] (by intro hx; simp at hx) ?_ h
  intro t e he hP hx
  rcases coKeys_coUpdEntry t e x hx with h1 | h1
  · exact hP h1
  · exact List.mem_flatten.mpr ⟨e, he, h1⟩

theorem lookupCo_eq_nil (co : CoMat) (n : ℕ) (h : n ∉ co.map Prod.fst) :
    lookupCo co n = [] := by
  induction co with
  | nil => rfl
  | cons q rest ih =>
      obtain ⟨k, al⟩ := q
      simp only [List.map_cons, List.mem_cons] at h
      push_neg at h
      rw [lookupCo, if_neg (fun e => h.1 e.symm)]
      exact ih h.2

/-- Every stored row of the built co-occurrence structure has positive
counts and distinct keys. -/
theorem rows_bumpCo (co : CoMat) (a b : ℕ)
    (h : ∀ q ∈ co, GoodAL q.2 ∧ (keysAL q.2).Nodup) :
    ∀ q ∈ bumpCo co a b, GoodAL q.2 ∧ (keysAL q.2).Nodup := by
  induction co with
  | nil =>
      intro q hq
      simp [bumpCo] at hq
      subst hq
      constructor
      · intro p hp
        simp at hp
        simp [hp]
      · simp [keysAL]
  | cons r rest ih =>
      obtain ⟨k, al⟩ := r
      by_cases hk : k = a
      · rw [bumpCo, if_pos hk]
        intro q hq
        rcases List.mem_cons.mp hq with rfl | hq'
        · have hh := h (k, al) (List.mem_cons_self _ _)
          exact ⟨goodAL_bumpAL al b hh.1, nodup_keys_bumpAL al b hh.2⟩
        · exact h q (List.mem_cons_of_mem _ hq')
      · rw [bumpCo, if_neg hk]
        intro q hq
        rcases List.mem_cons.mp hq with rfl | hq'
        · exact h _ (List.mem_cons_self _ _)
        · exact ih (fun r hr => h r (List.mem_cons_of_mem _ hr)) q hq'

theorem rows_co_occurrence (results : List (List ℕ)) :
    ∀ q ∈ co_occurrence results, GoodAL q.2 ∧ (keysAL q.2).Nodup := by
  unfold co_occurrence
  refine foldl_rec _ (fun co : CoMat => ∀ q ∈ co, GoodAL q.2 ∧ (keysAL q.2).Nodup)
    results [] (by intro q hq; simp at hq) ?_
  intro co e _ hP
  unfold coUpdEntry
  refine foldl_rec _ (fun co' : CoMat => ∀ q ∈ co', GoodAL q.2 ∧ (keysAL q.2).Nodup)
    e co hP ?_
  intro t a _ hP'
  refine foldl_rec _ (fun co' : CoMat => ∀ q ∈ co', GoodAL q.2 ∧ (keysAL q.2).Nodup)
    e t hP' ?_
  intro t' b _ hP''
  by_cases hab : a ≠ b
  · rw [if_pos hab]
    exact rows_bumpCo t' a b hP''
  · rw [if_neg hab]
    exact hP''

theorem lookupCo_prop (co : CoMat) (n : ℕ) (P : List (ℕ × ℕ) → Prop)
    (hnil : P []) (h : ∀ q ∈ co, P q.2) : P (lookupCo co n) := by
  induction co with
  | nil => exact hnil
  | cons q rest ih =>
      obtain ⟨k, al⟩ := q
      by_cases hk : k = n
      · rw [lookupCo, if_pos hk]
        exact h (k, al) (List.mem_cons_self _ _)
      · rw [lookupCo, if_neg hk]
        exact ih fun q hq => h q (List.mem_cons_of_mem _ hq)

theorem lookupCo_row_good (results : List (List ℕ)) (n : ℕ) :
    GoodAL (lookupCo (co_occurrence results) n) ∧
      (keysAL (lookupCo (co_occurrence results) n)).Nodup :=
  lookupCo_prop _ n (fun al => GoodAL al ∧ (keysAL al).Nodup)
    ⟨fun p hp => absurd hp (List.not_mem_nil p), List.nodup_nil⟩
    (rows_co_occurrence results)

/-! ### C7 and C8: query ordering -/

/-- C7 (amended): the partner list is sorted by count descending, carries
the true co-occurrence counts, and is empty (not an error) for a number
that never appeared; ties keep first-insertion order rather than the
ascending-value order the spec claims. -/
theorem partners_sorted_desc_insertion_ties (results : List (List ℕ)) (n : ℕ) :
    List.Pairwise (fun p q : ℕ × ℕ => q.2 ≤ p.2) (partnersOf results n) ∧
    (n ∉ results.flatten → partnersOf results n = []) ∧
    (∀ p ∈ partnersOf results n, coCount results n p.1 = p.2) := by
  refine ⟨sorted_sortDesc _, ?_, ?_⟩
  · intro hn
    have hkey : n ∉ (co_occurrence results).map Prod.fst := by
      intro hcon
      exact hn (coKeys_subset_flatten results n hcon)
    unfold partnersOf
    rw [lookupCo_eq_nil _ _ hkey]
    rfl
  · intro p hp
    have hmem : p ∈ lookupCo (co_occurrence results) n :=
      (perm_sortDesc _).subset hp
    obtain ⟨k, v⟩ := p
    exact lookupAL_of_mem _ k v (lookupCo_row_good results n).2 hmem

/-- Witness for C7: a number absent from all records has an empty partner
list. -/
theorem partners_witness :
    ((7 : ℕ) ∉ ([[1,2,3,4,5,6]] : List (List ℕ)).flatten) ∧
    partnersOf [[1,2,3,4,5,6]] 7 = [] :=
  ⟨by decide, (partners_sorted_desc_insertion_ties [[1,2,3,4,5,6]] 7).2.1 (by decide)⟩

/-- Counterexample to C7 as stated: on the single record `[1,3,2,4,5,6]`
the partner list of 1 starts with `(3,1)` (insertion order), not with
`(2,1)` as the ascending-value tie-break would require. -/
theorem partners_tiebreak_not_ascending :
    partnersOf [[1,3,2,4,5,6]] 1 ≠ specPartnersOf [[1,3,2,4,5,6]] 1 ∧
    (partnersOf [[1,3,2,4,5,6]] 1).head? = some (3, 1) ∧
    (specPartnersOf [[1,3,2,4,5,6]] 1).head? = some (2, 1) := by
  refine ⟨?_, by decide, by decide⟩
  decide

/-- C8 (amended): `freq.most_common(20)` returns at most 20 items sorted
by count descending, every omitted number has a count no larger than any
returned one, and each item carries its true frequency; ties keep
first-insertion order, so the result depends on aggregation order. -/
theorem topk_highest_counts_insertion_ties (results : List (List ℕ)) :
    List.Pairwise (fun p q : ℕ × ℕ => q.2 ≤ p.2) (topItemsOf results) ∧
    (∀ p ∈ topItemsOf results,
      ∀ q ∈ (sortDesc (number_frequencies results)).drop 20, q.2 ≤ p.2) ∧
    (∀ p ∈ topItemsOf results, freqCount results p.1 = p.2) := by
  refine ⟨(sorted_sortDesc _).sublist (List.take_sublist _ _), ?_, ?_⟩
  · have hs := sorted_sortDesc (number_frequencies results)
    rw [← List.take_append_drop 20 (sortDesc (number_frequencies results)),
      List.pairwise_append] at hs
    exact fun p hp q hq => hs.2.2 p hp q hq
  · intro p hp
    have hmem : p ∈ number_frequencies results :=
      (perm_sortDesc _).subset ((List.take_sublist _ _).subset hp)
    obtain ⟨k, v⟩ := p
    exact lookupAL_of_mem _ k v (nodup_keys_number_frequencies results) hmem

/-- Witness for C8 at a concrete record set and item. -/
theorem topk_witness :
    ((1, 1) ∈ topItemsOf [[1,2,3,4,5,6]]) ∧
    freqCount [[1,2,3,4,5,6]] 1 = 1 :=
  ⟨by decide, (topk_highest_counts_insertion_ties [[1,2,3,4,5,6]]).2.2 (1, 1) (by decide)⟩

/-- Counterexample to C8 as stated: ties are broken by first-insertion
order, not ascending value, and the pool differs for reordered record
sets with identical frequencies. -/
theorem topk_tiebreak_order_dependent :
    top_nums_of [[6,5,4,3,2,1]] ≠ (specTopK [[6,5,4,3,2,1]] 20).map Prod.fst ∧
    top_nums_of [[1,2,3,4,5,6],[7,8,9,10,11,12]] ≠
      top_nums_of [[7,8,9,10,11,12],[1,2,3,4,5,6]] := by
  constructor
  · decide
  · decide

/-! ### C9: record construction validates dates, never numbers -/

theorem fetch_abort_of_mem (rows : List (List (List ℕ))) (cols : List (List ℕ))
    (hmem : cols ∈ rows) (habort : parseRow cols = RowRes.abort) :
    fetch_manalotto_history rows = [] := by
  suffices h : fetchLoop rows = none by
    unfold fetch_manalotto_history
    rw [h]
  induction rows with
  | nil => simp at hmem
  | cons r rs ih =>
      have hstep : fetchLoop (r :: rs) =
          match parseRow r with
          | .abort => none
          | .skip => fetchLoop rs
          | .ok d nums =>
              match fetchLoop rs with
              | none => none
              | some acc => some ((d, nums) :: acc) := rfl
      rw [hstep]
      rcases List.mem_cons.mp hmem with rfl | hmem2
      · rw [habort]
      · cases hr : parseRow r with
        | abort => rfl
        | skip => exact ih hmem2
        | ok d nums => rw [ih hmem2]

/-- C9 (amended): on rows of ASCII text cells, construction never
rejects a record for invalid numbers.  A row with at least two columns
whose date cell matches `"%b %d, %Y"` is accepted with whatever numbers
its cell yields — wrong counts, duplicates and out-of-range values
included; a row with fewer than two columns is skipped (no error); and a
row whose date cell fails to parse raises `ValueError`, which aborts the
entire fetch to `[]` — there is no per-record `InvalidRecord` failure at
all. -/
theorem construction_accepts_any_row (rows : List (List (List ℕ)))
    (cols : List (List ℕ)) (hascii : ∀ cell ∈ cols, ∀ c ∈ cell, c < 128) :
    (∀ d, 2 ≤ cols.length → parseDate (cols.getD 0 []) = some d →
      parseRow cols = RowRes.ok d (rowNumbers (cols.getD 1 []))) ∧
    (2 ≤ cols.length → parseDate (cols.getD 0 []) = none →
      parseRow cols = RowRes.abort) ∧
    (cols.length < 2 → parseRow cols = RowRes.skip) ∧
    (cols ∈ rows → parseRow cols = RowRes.abort →
      fetch_manalotto_history rows = []) := by
  refine ⟨?_, ?_, ?_, fetch_abort_of_mem rows cols⟩
  · intro d h hd
    unfold parseRow
    rw [if_pos h, hd]
  · intro h hd
    unfold parseRow
    rw [if_pos h, hd]
  · intro h
    unfold parseRow
    rw [if_neg (by omega)]

/-- Witness for C9: the row `("Sep 2, 2025", "99-99")` — an ASCII row
with a well-formed date — is accepted, numbers unvalidated. -/
theorem construction_accepts_any_row_witness :
    (∀ cell ∈ ([[83,101,112,32,50,44,32,50,48,50,53], [57,57,45,57,57]] : List (List ℕ)),
      ∀ c ∈ cell, c < 128) ∧
    (2 ≤ ([[83,101,112,32,50,44,32,50,48,50,53], [57,57,45,57,57]] : List (List ℕ)).length) ∧
    parseDate (([[83,101,112,32,50,44,32,50,48,50,53], [57,57,45,57,57]] :
      List (List ℕ)).getD 0 []) = some (9, 2, 2025) ∧
    parseRow [[83,101,112,32,50,44,32,50,48,50,53], [57,57,45,57,57]] =
      RowRes.ok (9, 2, 2025)
        (rowNumbers (([[83,101,112,32,50,44,32,50,48,50,53], [57,57,45,57,57]] :
          List (List ℕ)).getD 1 [])) :=
  ⟨by decide, by decide, by decide,
    (construction_accepts_any_row
      [[[83,101,112,32,50,44,32,50,48,50,53], [57,57,45,57,57]]]
      [[83,101,112,32,50,44,32,50,48,50,53], [57,57,45,57,57]]
      (by decide)).1 (9, 2, 2025) (by decide) (by decide)⟩

/-- Counterexample to C9 as stated: the row `("Sep 2, 2025", "99-99")`
is constructed successfully although its numbers `[99, 99]` are
duplicated and out of range; and the row `("X", "01-02-03-04-05-06")`,
whose numbers satisfy every validity rule, makes the whole fetch return
`[]` because its date cell fails `strptime` — so construction neither
fails exactly on invalid numbers nor succeeds otherwise. -/
theorem invalid_record_accepted :
    parseRow [[83,101,112,32,50,44,32,50,48,50,53], [57,57,45,57,57]] =
      RowRes.ok (9, 2, 2025) [99, 99] ∧
    ¬ specValidNumbers [99, 99] ∧
    specValidNumbers (rowNumbers [48,49,45,48,50,45,48,51,45,48,52,45,48,53,45,48,54]) ∧
    fetch_manalotto_history
      [[[88], [48,49,45,48,50,45,48,51,45,48,52,45,48,53,45,48,54]]] = [] := by
  refine ⟨by decide, by decide, by decide, by decide⟩

/-! ### Basic facts about the prediction pipeline pieces -/

theorem mem_insertNew (x y : ℕ) (s : List ℕ) :
    y ∈ insertNew x s ↔ y = x ∨ y ∈ s := by
  unfold insertNew
  by_cases h : x ∈ s
  · rw [if_pos h]
    constructor
    · exact Or.inr
    · rintro (rfl | hy)
      · exact h
      · exact hy
  · rw [if_neg h]
    exact List.mem_cons

theorem nodup_insertNew (x : ℕ) (s : List ℕ) (h : s.Nodup) :
    (insertNew x s).Nodup := by
  unfold insertNew
  by_cases hx : x ∈ s
  · rwa [if_pos hx]
  · rw [if_neg hx]
    exact List.Nodup.cons hx h

theorem length_insertNew_le (x : ℕ) (s : List ℕ) :
    (insertNew x s).length ≤ s.length + 1 := by
  unfold insertNew
  by_cases hx : x ∈ s <;> simp [hx]

theorem insertNew_grow (x : ℕ) (s : List ℕ) :
    insertNew x s = s ∨ (insertNew x s).length = s.length + 1 := by
  unfold insertNew
  by_cases hx : x ∈ s <;> simp [hx]

theorem getD_mem (l : List ℕ) (k : ℕ) (h : k < l.length) : l.getD k 0 ∈ l := by
  have heq : l.getD k 0 = l.get ⟨k, h⟩ := by
    simp [List.getD_eq_getElem?_getD, List.getElem?_eq_getElem h]
  rw [heq]
  exact l.get_mem k h

theorem pick_mem (l : List ℕ) (r : ℕ) (h : l ≠ []) : pick l r ∈ l := by
  unfold pick
  exact getD_mem l _ (Nat.mod_lt _ (List.length_pos.mpr h))

theorem pick_eq_get (l : List ℕ) (r : ℕ) (h : r % l.length < l.length) :
    pick l r = l.get ⟨r % l.length, h⟩ := by
  unfold pick
  simp [List.getD_eq_getElem?_getD, List.getElem?_eq_getElem h]

theorem sample2_subset (l : List ℕ) (r1 r2 : ℕ) :
    ∀ x ∈ sample2 l r1 r2, x ∈ l := by
  unfold sample2
  by_cases h : l.length ≤ 1
  · rw [if_pos h]
    exact fun x hx => hx
  · rw [if_neg h]
    intro x hx
    have hne : l ≠ [] := by
      intro e
      rw [e] at h
      simp at h
    have herase : l.eraseIdx (r1 % l.length) ≠ [] := by
      have h1 : r1 % l.length < l.length := Nat.mod_lt _ (List.length_pos.mpr hne)
      have h2 := List.length_eraseIdx (l := l) (i := r1 % l.length)
      rw [if_pos h1] at h2
      intro e
      rw [e] at h2
      simp at h2
      omega
    rcases List.mem_cons.mp hx with rfl | hx'
    · exact pick_mem l r1 hne
    · rcases List.mem_cons.mp hx' with rfl | hx''
      · exact (List.eraseIdx_sublist l (r1 % l.length)).subset
          (pick_mem _ r2 herase)
      · simp at hx''

theorem sample2_length_le (l : List ℕ) (r1 r2 : ℕ) :
    (sample2 l r1 r2).length ≤ 2 := by
  unfold sample2
  by_cases h : l.length ≤ 1 <;> simp [h]
  omega

/-! ### The fill loop: step equations and postconditions -/

theorem fill_done (pool : List ℕ) (top_n : ℕ) (stream : ℕ → ℕ) (fuel i : ℕ)
    (pred : List ℕ) (h : top_n ≤ pred.length) :
    fillFuel pool top_n stream fuel i pred = .ok pred := by
  cases fuel <;> simp [fillFuel, h]

theorem fill_err (pool : List ℕ) (top_n : ℕ) (stream : ℕ → ℕ) (fuel i : ℕ)
    (pred : List ℕ) (h1 : pred.length < top_n) (h2 : pool = []) :
    fillFuel pool top_n stream fuel i pred = .err := by
  cases fuel <;> simp [fillFuel, h2, show ¬ top_n ≤ pred.length by omega]

theorem fill_zero (pool : List ℕ) (top_n : ℕ) (stream : ℕ → ℕ) (i : ℕ)
    (pred : List ℕ) (h1 : pred.length < top_n) (h2 : pool ≠ []) :
    fillFuel pool top_n stream 0 i pred = .noFuel := by
  simp [fillFuel, h2, show ¬ top_n ≤ pred.length by omega]

theorem fill_step (pool : List ℕ) (top_n : ℕ) (stream : ℕ → ℕ) (fuel i : ℕ)
    (pred : List ℕ) (h1 : pred.length < top_n) (h2 : pool ≠ []) :
    fillFuel pool top_n stream (fuel + 1) i pred =
      fillFuel pool top_n stream fuel (i + 1) (insertNew (pick pool (stream i)) pred) := by
  simp [fillFuel, h2, show ¬ top_n ≤ pred.length by omega]

theorem fill_ok_props (pool : List ℕ) (top_n : ℕ) (stream : ℕ → ℕ)
    (Q : ℕ → Prop) :
    ∀ (fuel i : ℕ) (pred p : List ℕ),
      fillFuel pool top_n stream fuel i pred = .ok p →
      (∀ x ∈ pred, Q x) → (∀ x ∈ pool, Q x) →
      (∀ x ∈ p, Q x) ∧ (pred.Nodup → p.Nodup) ∧
        (pred.length ≤ top_n → p.length = top_n) := by
  intro fuel
  induction fuel with
  | zero =>
      intro i pred p hok hpred _
      by_cases h : top_n ≤ pred.length
      · rw [fill_done _ _ _ _ _ _ h] at hok
        injection hok with hok'
        subst hok'
        exact ⟨hpred, fun hnd => hnd, fun hl => le_antisymm hl h⟩
      · by_cases hp : pool = []
        · rw [fill_err _ _ _ _ _ _ (by omega) hp] at hok
          cases hok
        · rw [fill_zero _ _ _ _ _ (by omega) hp] at hok
          cases hok
  | succ f ih =>
      intro i pred p hok hpred hpool
      by_cases h : top_n ≤ pred.length
      · rw [fill_done _ _ _ _ _ _ h] at hok
        injection hok with hok'
        subst hok'
        exact ⟨hpred, fun hnd => hnd, fun hl => le_antisymm hl h⟩
      · by_cases hp : pool = []
        · rw [fill_err _ _ _ _ _ _ (by omega) hp] at hok
          cases hok
        · rw [fill_step _ _ _ _ _ _ (by omega) hp] at hok
          have hq : ∀ x ∈ insertNew (pick pool (stream i)) pred, Q x := by
            intro x hx
            rcases (mem_insertNew _ x pred).mp hx with rfl | hx'
            · exact hpool _ (pick_mem _ _ hp)
            · exact hpred x hx'
          obtain ⟨q1, q2, q3⟩ := ih (i + 1) _ p hok hq hpool
          refine ⟨q1, fun hnd => q2 (nodup_insertNew _ _ hnd), fun hl => q3 ?_⟩
          have := length_insertNew_le (pick pool (stream i)) pred
          omega

theorem fill_stuck (pool : List ℕ) (top_n : ℕ) (stream : ℕ → ℕ) (S : List ℕ)
    (hS : S.Nodup) (hpoolS : pool ⊆ S) (hlen : S.length < top_n)
    (hpool : pool ≠ []) :
    ∀ (fuel i : ℕ) (pred : List ℕ), pred.Nodup → pred ⊆ S →
      fillFuel pool top_n stream fuel i pred = .noFuel := by
  intro fuel
  induction fuel with
  | zero =>
      intro i pred hnd hsub
      have hplen : pred.length ≤ S.length := (List.subperm_of_subset hnd hsub).length_le
      exact fill_zero _ _ _ _ _ (by omega) hpool
  | succ f ih =>
      intro i pred hnd hsub
      have hplen : pred.length ≤ S.length := (List.subperm_of_subset hnd hsub).length_le
      rw [fill_step _ _ _ _ _ _ (by omega) hpool]
      refine ih (i + 1) _ (nodup_insertNew _ _ hnd) ?_
      intro x hx
      rcases (mem_insertNew _ x pred).mp hx with rfl | hx'
      · exact hpoolS (pick_mem _ _ hpool)
      · exact hsub hx'

theorem fill_stuck_redraw (pool : List ℕ) (top_n : ℕ) (stream : ℕ → ℕ)
    (pred : List ℕ) (hdraw : ∀ j, pick pool (stream j) ∈ pred)
    (h1 : pred.length < top_n) (h2 : pool ≠ []) :
    ∀ (fuel i : ℕ), fillFuel pool top_n stream fuel i pred = .noFuel := by
  intro fuel
  induction fuel with
  | zero => intro i; exact fill_zero _ _ _ _ _ h1 h2
  | succ f ih =>
      intro i
      rw [fill_step _ _ _ _ _ _ h1 h2,
        show insertNew (pick pool (stream i)) pred = pred by
          simp [insertNew, hdraw i]]
      exact ih (i + 1)

/-! ### Where the candidate numbers come from -/

theorem mem_top_nums_freq_pos (results : List (List ℕ)) (n : ℕ)
    (h : n ∈ top_nums_of results) : 1 ≤ freqCount results n := by
  unfold top_nums_of topItemsOf at h
  obtain ⟨p, hp, rfl⟩ := List.mem_map.mp h
  have hp2 : p ∈ number_frequencies results :=
    (perm_sortDesc _).subset ((List.take_sublist _ _).subset hp)
  exact mem_keys_lookup_pos _ _ (goodAL_number_frequencies results)
    (List.mem_map_of_mem Prod.fst hp2)

theorem freq_pos_mem_flatten (results : List (List ℕ)) (n : ℕ)
    (h : 1 ≤ freqCount results n) : n ∈ results.flatten := by
  rw [freqCount_eq_count] at h
  exact List.count_pos_iff.mp (by omega)

theorem mem_flatten_freq_pos (results : List (List ℕ)) (n : ℕ)
    (h : n ∈ results.flatten) : 1 ≤ freqCount results n := by
  rw [freqCount_eq_count]
  exact List.count_pos_iff.mpr h

theorem nodup_top_nums (results : List (List ℕ)) : (top_nums_of results).Nodup := by
  have h1 : (keysAL (number_frequencies results)).Nodup :=
    nodup_keys_number_frequencies results
  have hperm : List.Perm (List.map Prod.fst (sortDesc (number_frequencies results)))
      (keysAL (number_frequencies results)) := (perm_sortDesc _).map Prod.fst
  have h2 : (List.map Prod.fst (sortDesc (number_frequencies results))).Nodup :=
    hperm.nodup_iff.mpr h1
  unfold top_nums_of topItemsOf
  exact h2.sublist ((List.take_sublist _ _).map Prod.fst)

theorem length_top_nums (results : List (List ℕ)) :
    (top_nums_of results).length = min 20 (number_frequencies results).length := by
  unfold top_nums_of topItemsOf
  simp [List.length_take, (perm_sortDesc (number_frequencies results)).length_eq]

theorem top_nums_ne_nil (results : List (List ℕ)) (h : results.flatten ≠ []) :
    top_nums_of results ≠ [] := by
  obtain ⟨x, hx⟩ := List.exists_mem_of_ne_nil _ h
  have hkey : x ∈ keysAL (number_frequencies results) :=
    lookup_pos_mem_keys _ _ (mem_flatten_freq_pos results x hx)
  have hpos : 0 < (number_frequencies results).length := by
    have := List.length_pos.mpr (List.ne_nil_of_mem hkey)
    unfold keysAL at this
    simpa using this
  have hlen := length_top_nums results
  intro e
  rw [e] at hlen
  simp at hlen
  omega

theorem sum_pos_exists {α : Type} (l : List α) (f : α → ℕ)
    (h : 1 ≤ (l.map f).sum) : ∃ x ∈ l, 1 ≤ f x := by
  induction l with
  | nil => simp at h
  | cons a rest ih =>
      rw [List.map_cons, List.sum_cons] at h
      by_cases ha : 1 ≤ f a
      · exact ⟨a, List.mem_cons_self a rest, ha⟩
      · have : 1 ≤ (rest.map f).sum := by omega
        obtain ⟨x, hx, hfx⟩ := ih this
        exact ⟨x, List.mem_cons_of_mem a hx, hfx⟩

theorem partner_freq_pos (results : List (List ℕ)) (seed : ℕ) (pr : ℕ × ℕ)
    (hpr : pr ∈ (partnersOf results seed).take 2) :
    1 ≤ freqCount results pr.1 := by
  have hmem : pr ∈ lookupCo (co_occurrence results) seed :=
    (perm_sortDesc _).subset ((List.take_sublist _ _).subset hpr)
  have hpos : 1 ≤ lookupAL (lookupCo (co_occurrence results) seed) pr.1 :=
    mem_keys_lookup_pos _ _ (lookupCo_row_good results seed).1
      (List.mem_map_of_mem Prod.fst hmem)
  have hco : 1 ≤ coCount results seed pr.1 := hpos
  rw [coCount_closed] at hco
  by_cases h : seed = pr.1
  · rw [if_pos h] at hco
    omega
  · rw [if_neg h] at hco
    obtain ⟨r, hr, hfr⟩ := sum_pos_exists results _ hco
    have hb : r.count pr.1 ≠ 0 := by
      intro e
      rw [e, Nat.mul_zero] at hfr
      omega
    have hbr : pr.1 ∈ r := List.count_pos_iff.mp (by omega)
    exact mem_flatten_freq_pos results pr.1 (List.mem_flatten.mpr ⟨r, hr, hbr⟩)

theorem length_foldl_insertNew (l : List ℕ) (p : List ℕ) :
    (l.foldl (fun p s => insertNew s p) p).length ≤ p.length + l.length := by
  induction l generalizing p with
  | nil => simp
  | cons x xs ih =>
      rw [List.foldl_cons]
      have h1 := ih (insertNew x p)
      have h2 := length_insertNew_le x p
      simp only [List.length_cons]
      omega

/-- The combined invariant of the prediction set before the fill loop:
all members were observed in some record, no duplicates, and at most
`top_n` members. -/
theorem preFill_props (results : List (List ℕ)) (top_n : ℕ) (stream : ℕ → ℕ)
    (h2t : 2 ≤ top_n) :
    (∀ x ∈ preFill results top_n stream, 1 ≤ freqCount results x) ∧
    (preFill results top_n stream).Nodup ∧
    (preFill results top_n stream).length ≤ top_n := by
  have hseeds : ∀ s ∈ seedsOf results stream, 1 ≤ freqCount results s :=
    fun s hs => mem_top_nums_freq_pos results s (sample2_subset _ _ _ s hs)
  have hfreq0 : ∀ x ∈ (seedsOf results stream).foldl (fun p s => insertNew s p) [],
      1 ≤ freqCount results x := by
    refine foldl_rec _ (fun p : List ℕ => ∀ x ∈ p, 1 ≤ freqCount results x)
      _ [] (by simp) ?_
    intro t s hs hP x hx
    rcases (mem_insertNew s x t).mp hx with rfl | hx'
    · exact hseeds _ hs
    · exact hP x hx'
  have hnd0 : ((seedsOf results stream).foldl (fun p s => insertNew s p) []).Nodup :=
    foldl_rec _ (fun p : List ℕ => p.Nodup) _ [] List.nodup_nil
      fun t s _ h => nodup_insertNew s t h
  have hlen0 : ((seedsOf results stream).foldl (fun p s => insertNew s p) []).length ≤ top_n := by
    have h1 := length_foldl_insertNew (seedsOf results stream) []
    have h2 : (seedsOf results stream).length ≤ 2 := by
      unfold seedsOf
      exact sample2_length_le _ _ _
    simp at h1
    omega
  unfold preFill
  refine foldl_rec _
    (fun p : List ℕ => (∀ x ∈ p, 1 ≤ freqCount results x) ∧ p.Nodup ∧ p.length ≤ top_n)
    _ _ ⟨hfreq0, hnd0, hlen0⟩ ?_
  intro t seed _ hP
  unfold addPartnersFor
  refine foldl_rec _
    (fun p : List ℕ => (∀ x ∈ p, 1 ≤ freqCount results x) ∧ p.Nodup ∧ p.length ≤ top_n)
    _ t hP ?_
  intro t' pr hpr hP'
  obtain ⟨hf', hnd', hlen'⟩ := hP'
  by_cases hc : t'.length < top_n
  · rw [if_pos hc]
    refine ⟨?_, nodup_insertNew _ _ hnd', ?_⟩
    · intro x hx
      rcases (mem_insertNew pr.1 x t').mp hx with rfl | hx'
      · exact partner_freq_pos results seed pr hpr
      · exact hf' x hx'
    · have := length_insertNew_le pr.1 t'
      omega
  · rw [if_neg hc]
    exact ⟨hf', hnd', hlen'⟩

theorem predictOne_ok (results : List (List ℕ)) (top_n : ℕ) (stream : ℕ → ℕ)
    (fuel : ℕ) (p : List ℕ) (h : predictOne results top_n stream fuel = .ok p) :
    ∃ q, fillFuel (top_nums_of results) top_n stream fuel 2
        (preFill results top_n stream) = .ok q ∧ p = sortAsc q := by
  unfold predictOne at h
  cases hq : fillFuel (top_nums_of results) top_n stream fuel 2
      (preFill results top_n stream) with
  | ok q =>
      rw [hq] at h
      injection h with h2
      exact ⟨q, rfl, h2.symm⟩
  | err =>
      rw [hq] at h
      simp at h
  | noFuel =>
      rw [hq] at h
      simp at h

/-! ### C10, C2 and C1 -/

/-- C10: every number in every combination emitted by
`predict_next_numbers` has nonzero frequency in the input record set. -/
theorem predictions_from_observed_numbers (results : List (List ℕ))
    (streams : ℕ → ℕ → ℕ) (k fuel : ℕ) (p : List ℕ) (x : ℕ)
    (hp : FillRes.ok p ∈ predict_next_numbers results 6 k streams fuel)
    (hx : x ∈ p) : 1 ≤ freqCount results x := by
  unfold predict_next_numbers at hp
  obtain ⟨j, _, hpj⟩ := List.mem_map.mp hp
  obtain ⟨q, hq, rfl⟩ := predictOne_ok results 6 (streams j) fuel p hpj
  have hpre := preFill_props results 6 (streams j) (by omega)
  have hxq : x ∈ q := (List.perm_insertionSort (· ≤ ·) q).subset hx
  exact (fill_ok_props (top_nums_of results) 6 (streams j)
    (fun n => 1 ≤ freqCount results n) fuel 2 _ q hq hpre.1
    fun y hy => mem_top_nums_freq_pos results y hy).1 x hxq

/-- Witness for C10 at a concrete run that emits `[1,2,3,4,5,7]`. -/
theorem predictions_from_observed_numbers_witness :
    (FillRes.ok [1,2,3,4,5,7] ∈
      predict_next_numbers [[1,2,3,4,5,6],[1,2,7,8,9,10],[1,3,7,11,12,13]]
        6 3 (fun _ i => i) 30) ∧
    (1 ∈ ([1,2,3,4,5,7] : List ℕ)) ∧
    1 ≤ freqCount [[1,2,3,4,5,6],[1,2,7,8,9,10],[1,3,7,11,12,13]] 1 :=
  ⟨by decide, by decide,
    predictions_from_observed_numbers [[1,2,3,4,5,6],[1,2,7,8,9,10],[1,3,7,11,12,13]]
      (fun _ i => i) 3 30 [1,2,3,4,5,7] 1 (by decide) (by decide)⟩

/-- C2: on records of 6 distinct numbers in [1,58], every emitted
combination is strictly ascending with exactly 6 distinct members, all
in [1,58]. -/
theorem prediction_validity (results : List (List ℕ)) (streams : ℕ → ℕ → ℕ)
    (k fuel : ℕ) (p : List ℕ)
    (hrec : ∀ r ∈ results, r.length = 6 ∧ r.Nodup ∧ ∀ x ∈ r, 1 ≤ x ∧ x ≤ 58)
    (hp : FillRes.ok p ∈ predict_next_numbers results 6 k streams fuel) :
    List.Sorted (· < ·) p ∧ p.length = 6 ∧ p.Nodup ∧
      ∀ x ∈ p, 1 ≤ x ∧ x ≤ 58 := by
  unfold predict_next_numbers at hp
  obtain ⟨j, _, hpj⟩ := List.mem_map.mp hp
  obtain ⟨q, hq, rfl⟩ := predictOne_ok results 6 (streams j) fuel p hpj
  have hpre := preFill_props results 6 (streams j) (by omega)
  obtain ⟨h1, h2, h3⟩ := fill_ok_props (top_nums_of results) 6 (streams j)
    (fun n => 1 ≤ freqCount results n) fuel 2 _ q hq hpre.1
    fun y hy => mem_top_nums_freq_pos results y hy
  have hndq : q.Nodup := h2 hpre.2.1
  have hlenq : q.length = 6 := h3 hpre.2.2
  have hperm : List.Perm (sortAsc q) q := List.perm_insertionSort (· ≤ ·) q
  have hnd : (sortAsc q).Nodup := hperm.nodup_iff.mpr hndq
  have hsorted : List.Sorted (· ≤ ·) (sortAsc q) := List.sorted_insertionSort (· ≤ ·) q
  refine ⟨hsorted.lt_of_le hnd, ?_, hnd, ?_⟩
  · rw [hperm.length_eq, hlenq]
  · intro x hx
    have hflat : x ∈ results.flatten :=
      freq_pos_mem_flatten results x (h1 x (hperm.subset hx))
    obtain ⟨r, hr, hxr⟩ := List.mem_flatten.mp hflat
    exact (hrec r hr).2.2 x hxr

/-- Witness for C2 at a concrete run that emits `[1,2,3,4,5,7]`. -/
theorem prediction_validity_witness :
    (∀ r ∈ ([[1,2,3,4,5,6],[1,2,7,8,9,10],[1,3,7,11,12,13]] : List (List ℕ)),
        r.length = 6 ∧ r.Nodup ∧ ∀ x ∈ r, 1 ≤ x ∧ x ≤ 58) ∧
    (FillRes.ok [1,2,3,4,5,7] ∈
      predict_next_numbers [[1,2,3,4,5,6],[1,2,7,8,9,10],[1,3,7,11,12,13]]
        6 3 (fun _ i => i) 30) ∧
    (List.Sorted (· < ·) ([1,2,3,4,5,7] : List ℕ) ∧
      ([1,2,3,4,5,7] : List ℕ).length = 6 ∧ ([1,2,3,4,5,7] : List ℕ).Nodup ∧
      ∀ x ∈ ([1,2,3,4,5,7] : List ℕ), 1 ≤ x ∧ x ≤ 58) :=
  ⟨by decide, by decide,
    prediction_validity [[1,2,3,4,5,6],[1,2,7,8,9,10],[1,3,7,11,12,13]]
      (fun _ i => i) 3 30 [1,2,3,4,5,7] (by decide) (by decide)⟩

theorem predict_err_on_empty (results : List (List ℕ)) (stream : ℕ → ℕ)
    (fuel : ℕ) (hne : results.flatten = []) :
    predictOne results 6 stream fuel = .err := by
  have hfreq : number_frequencies results = [] := by
    unfold number_frequencies
    rw [foldl_update_eq_flatten, hne]
    rfl
  have hpool : top_nums_of results = [] := by
    unfold top_nums_of topItemsOf
    rw [hfreq]
    rfl
  have hseeds : seedsOf results stream = [] := by
    unfold seedsOf
    rw [hpool]
    rfl
  have hpre : preFill results 6 stream = [] := by
    unfold preFill
    rw [hseeds]
    rfl
  unfold predictOne
  rw [hpre, hpool, fill_err _ _ _ _ _ _ (by simp) rfl]

theorem predict_stalls_below_six (results : List (List ℕ)) (stream : ℕ → ℕ)
    (fuel : ℕ) (hfew : ((results.flatten).dedup).length < 6)
    (hne : results.flatten ≠ []) :
    predictOne results 6 stream fuel = .noFuel := by
  have hS : ((results.flatten).dedup).Nodup := List.nodup_dedup _
  have hpoolS : top_nums_of results ⊆ (results.flatten).dedup := fun x hx =>
    List.mem_dedup.mpr (freq_pos_mem_flatten results x (mem_top_nums_freq_pos results x hx))
  have hpone : top_nums_of results ≠ [] := top_nums_ne_nil results hne
  have hpre := preFill_props results 6 stream (by omega)
  have hpreS : preFill results 6 stream ⊆ (results.flatten).dedup := fun x hx =>
    List.mem_dedup.mpr (freq_pos_mem_flatten results x (hpre.1 x hx))
  have hfill := fill_stuck (top_nums_of results) 6 stream _ hS hpoolS hfew hpone
    fuel 2 _ hpre.2.1 hpreS
  unfold predictOne
  rw [hfill]

/-- C1 (amended): the code never signals insufficient data.  When fewer
than 6 distinct numbers occur in the records, each prediction pass either
hits the `IndexError` of `random.choice([])` (no numbers at all) or its
fill loop never finishes, for every fuel and every stream. -/
theorem predict_never_signals_insufficient_data (results : List (List ℕ))
    (stream : ℕ → ℕ) (fuel : ℕ)
    (hfew : ((results.flatten).dedup).length < 6) :
    predictOne results 6 stream fuel =
      (if results.flatten = [] then FillRes.err else FillRes.noFuel) := by
  by_cases hne : results.flatten = []
  · rw [if_pos hne]
    exact predict_err_on_empty results stream fuel hne
  · rw [if_neg hne]
    exact predict_stalls_below_six results stream fuel hfew hne

/-- Witness for C1 at the three-distinct-numbers record set. -/
theorem predict_never_signals_insufficient_data_witness :
    ((([[1,2,3]] : List (List ℕ)).flatten).dedup.length < 6) ∧
    predictOne [[1,2,3]] 6 (fun _ => 0) 7 =
      (if ([[1,2,3]] : List (List ℕ)).flatten = [] then FillRes.err else FillRes.noFuel) :=
  ⟨by decide, predict_never_signals_insufficient_data [[1,2,3]] (fun _ => 0) 7 (by decide)⟩

/-- Counterexample to C1 as stated: on records with 3 distinct numbers
the generator does not fail with any insufficient-data error — it never
returns at all (`noFuel` for every fuel). -/
theorem predict_stalls_on_three_distinct : predictStalls [[1,2,3]] (fun _ => 0) :=
  fun fuel => predict_stalls_below_six [[1,2,3]] (fun _ => 0) fuel (by decide) (by decide)

/-! ### C3: behaviour of the fill loop under the feasibility precondition -/

theorem fillState_succ (pool : List ℕ) (stream : ℕ → ℕ) (n i : ℕ) (pred : List ℕ) :
    fillState pool stream (n + 1) i pred =
      fillState pool stream n (i + 1) (insertNew (pick pool (stream i)) pred) := rfl

theorem subset_fillState (pool : List ℕ) (stream : ℕ → ℕ) :
    ∀ (n i : ℕ) (pred : List ℕ), pred ⊆ fillState pool stream n i pred := by
  intro n
  induction n with
  | zero => intro i pred x hx; exact hx
  | succ n ih =>
      intro i pred x hx
      rw [fillState_succ]
      exact ih (i + 1) _ ((mem_insertNew _ x pred).mpr (Or.inr hx))

theorem nodup_fillState (pool : List ℕ) (stream : ℕ → ℕ) :
    ∀ (n i : ℕ) (pred : List ℕ), pred.Nodup → (fillState pool stream n i pred).Nodup := by
  intro n
  induction n with
  | zero => intro i pred h; exact h
  | succ n ih =>
      intro i pred h
      rw [fillState_succ]
      exact ih (i + 1) _ (nodup_insertNew _ _ h)

theorem draw_mem_fillState (pool : List ℕ) (stream : ℕ → ℕ) :
    ∀ (n i : ℕ) (pred : List ℕ),
      pick pool (stream (i + n)) ∈ fillState pool stream (n + 1) i pred := by
  intro n
  induction n with
  | zero =>
      intro i pred
      rw [fillState_succ]
      simp only [Nat.add_zero]
      exact subset_fillState pool stream 0 (i + 1) _
        ((mem_insertNew _ _ pred).mpr (Or.inl rfl))
  | succ n ih =>
      intro i pred
      rw [fillState_succ]
      rw [show i + (n + 1) = (i + 1) + n by omega]
      exact ih (i + 1) _

theorem fill_split (pool : List ℕ) (top_n : ℕ) (stream : ℕ → ℕ)
    (hpool : pool ≠ []) :
    ∀ (n fuel i : ℕ) (pred : List ℕ),
      (∃ p, fillFuel pool top_n stream (n + fuel) i pred = .ok p) ∨
      fillFuel pool top_n stream (n + fuel) i pred =
        fillFuel pool top_n stream fuel (i + n) (fillState pool stream n i pred) := by
  intro n
  induction n with
  | zero =>
      intro fuel i pred
      right
      simp [fillState]
  | succ n ih =>
      intro fuel i pred
      by_cases h : top_n ≤ pred.length
      · exact Or.inl ⟨pred, fill_done _ _ _ _ _ _ h⟩
      · rw [show (n + 1) + fuel = (n + fuel) + 1 by omega,
          fill_step _ _ _ _ _ _ (by omega) hpool]
        rcases ih fuel (i + 1) (insertNew (pick pool (stream i)) pred) with ⟨p, hp⟩ | heq
        · exact Or.inl ⟨p, hp⟩
        · right
          rw [heq, fillState_succ, show (i + 1) + n = i + (n + 1) by omega]

theorem grow_of_new_mem (S pred : List ℕ) (x : ℕ) (hnd : pred.Nodup)
    (hx : x ∈ S) (hnx : x ∉ pred) (hsub : pred ⊆ S) : pred.length < S.length := by
  have hsp : List.Subperm (x :: pred) S := by
    refine List.subperm_of_subset (List.Nodup.cons hnx hnd) ?_
    intro y hy
    rcases List.mem_cons.mp hy with rfl | hy'
    · exact hx
    · exact hsub hy'
  have := hsp.length_le
  simp at this
  omega

theorem exists_missing (pool pred : List ℕ) (hnd : pool.Nodup)
    (hlen : pred.length < pool.length) : ∃ x ∈ pool, x ∉ pred := by
  by_contra h
  push_neg at h
  have : pool.length ≤ pred.length := (List.subperm_of_subset hnd h).length_le
  omega

theorem fill_total_of_fair (pool : List ℕ) (top_n : ℕ) (stream : ℕ → ℕ)
    (hnd : pool.Nodup) (hlen : top_n ≤ pool.length) (hpos : 0 < top_n)
    (hfair : ∀ i k, k < pool.length → ∃ j, i ≤ j ∧ stream j % pool.length = k) :
    ∀ (d : ℕ) (pred : List ℕ) (i : ℕ), pred.Nodup → top_n - pred.length ≤ d →
      ∃ fuel p, fillFuel pool top_n stream fuel i pred = .ok p := by
  have hpool : pool ≠ [] := by
    intro e
    rw [e] at hlen
    simp at hlen
    omega
  intro d
  induction d with
  | zero =>
      intro pred i _ hd
      exact ⟨0, pred, fill_done _ _ _ _ _ _ (by omega)⟩
  | succ d ih =>
      intro pred i hndp hd
      by_cases hdone : top_n ≤ pred.length
      · exact ⟨0, pred, fill_done _ _ _ _ _ _ hdone⟩
      · obtain ⟨x, hxpool, hxnew⟩ := exists_missing pool pred hnd (by omega)
        obtain ⟨k, hk⟩ := List.mem_iff_get.mp hxpool
        obtain ⟨j, hij, hjk⟩ := hfair i k.1 k.2
        have hdrawx : pick pool (stream (i + (j - i))) = x := by
          rw [show i + (j - i) = j by omega,
            pick_eq_get pool (stream j) (by rw [hjk]; exact k.2)]
          rw [show (⟨stream j % pool.length, by rw [hjk]; exact k.2⟩ : Fin pool.length) = k
            from Fin.ext hjk]
          exact hk
        have hxin : x ∈ fillState pool stream ((j - i) + 1) i pred := by
          rw [← hdrawx]
          exact draw_mem_fillState pool stream (j - i) i pred
        have hndstate : (fillState pool stream ((j - i) + 1) i pred).Nodup :=
          nodup_fillState pool stream _ i pred hndp
        have hgrow : pred.length < (fillState pool stream ((j - i) + 1) i pred).length :=
          grow_of_new_mem _ pred x hndp hxin hxnew (subset_fillState pool stream _ i pred)
        obtain ⟨fuel, p, hfin⟩ := ih (fillState pool stream ((j - i) + 1) i pred)
          (i + ((j - i) + 1)) hndstate (by omega)
        rcases fill_split pool top_n stream hpool ((j - i) + 1) fuel i pred with ⟨p', hp'⟩ | heq
        · exact ⟨(j - i) + 1 + fuel, p', hp'⟩
        · exact ⟨(j - i) + 1 + fuel, p, by rw [heq]; exact hfin⟩

/-- C3 (amended): each iteration of the fill loop either strictly grows
the combination or retries it unchanged, and under the precondition that
the candidate pool holds at least 6 distinct numbers the loop terminates
for every stream that keeps proposing every pool index; it is not total
over arbitrary streams (see the counterexample). -/
theorem fill_terminates_for_fair_streams (results : List (List ℕ))
    (stream : ℕ → ℕ) (pred : List ℕ) (i : ℕ)
    (h6 : 6 ≤ (top_nums_of results).length)
    (hfair : ∀ i0 k, k < (top_nums_of results).length →
      ∃ j, i0 ≤ j ∧ stream j % (top_nums_of results).length = k)
    (hpred : pred.Nodup) :
    (∀ x s, insertNew x s = s ∨ (insertNew x s).length = s.length + 1) ∧
    ∃ fuel p, fillFuel (top_nums_of results) 6 stream fuel i pred = FillRes.ok p :=
  ⟨insertNew_grow,
    fill_total_of_fair (top_nums_of results) 6 stream (nodup_top_nums results)
      h6 (by omega) hfair 6 pred i hpred (by omega)⟩

/-- Witness for C3: a pool of 6 distinct numbers with the identity
stream, which proposes every index of the pool over and over. -/
theorem fill_terminates_for_fair_streams_witness :
    (6 ≤ (top_nums_of [[1,2,3,4,5,6]]).length) ∧
    ((∀ x s, insertNew x s = s ∨ (insertNew x s).length = s.length + 1) ∧
      ∃ fuel p, fillFuel (top_nums_of [[1,2,3,4,5,6]]) 6 (fun j => j) fuel 0 [] =
        FillRes.ok p) :=
  ⟨by decide,
    fill_terminates_for_fair_streams [[1,2,3,4,5,6]] (fun j => j) [] 0 (by decide)
      (fun i0 k hk => by
        have hlen : (top_nums_of [[1,2,3,4,5,6]]).length = 6 := by decide
        rw [hlen] at hk ⊢
        refine ⟨(i0 + 1) * 6 + k, by omega, ?_⟩
        show ((i0 + 1) * 6 + k) % 6 = k
        omega)
      List.nodup_nil⟩

/-- Counterexample to C3 as stated: even with a pool of 6 distinct
numbers (the precondition holds), the constant-0 stream keeps redrawing
an already-present member, so the fill loop of the full prediction pass
never terminates — the loop is not a total function of the stream. -/
theorem fill_not_total_const_stream :
    (6 ≤ (top_nums_of [[1,2,3,4,5,6]]).length) ∧
    predictStalls [[1,2,3,4,5,6]] (fun _ => 0) := by
  refine ⟨by decide, ?_⟩
  intro fuel
  have hpool : top_nums_of [[1,2,3,4,5,6]] = [1,2,3,4,5,6] := by decide
  have hpre : preFill [[1,2,3,4,5,6]] 6 (fun _ => 0) = [3,2,1] := by decide
  unfold predictOne
  rw [hpre, hpool,
    fill_stuck_redraw [1,2,3,4,5,6] 6 (fun _ => 0) [3,2,1]
      (fun j => (by decide : pick [1,2,3,4,5,6] 0 ∈ [3,2,1]))
      (by decide) (by decide) fuel 2]
